import Mathlib

/-!
Shallow embedding of `bot_ingestador_webhook.py` (a Telegram bet-ingestion
bot with a deferred single-commit protocol and an Upstash dedupe gate),
together with theorems settling the frozen claims about it.

Modelling conventions:
* Python `float` values are modelled as exact rationals (`ℚ`); the inputs the
  claims quantify over are plain decimal literals, for which the rational
  value is the intended denotation.
* Python strings are Lean `String`s; `str.strip()`, `str.upper()`,
  `str.lower()`, `str.replace(",", ".")` are modelled character-wise over
  `String.data` (they agree with CPython on the ASCII inputs involved).
* `hashlib.sha256(...).hexdigest()` is a pure function of its input string;
  it is abstracted as an explicit `hash : String → String` parameter, so
  every theorem about `Draft.dedupe_key` holds for the real digest function.
* The network calls (`httpx`) are modelled by their observable outcomes:
  an `ExistsOutcome` for the Upstash `EXISTS` round-trip and a `Bool` for
  "the Sheets POST returned ok"; the commit protocol is a pure function of
  those outcomes that reports which external writes were issued.
* `python-telegram-bot`'s `ConversationHandler` is instantiated with
  `allow_reentry=True`, whose documented dispatch order checks the entry
  points (here: the catch-all text handler `receive_text`) *before* the
  per-state handlers; `handle` reproduces that dispatch.
-/

namespace BotIngestador

/-- Config constant `MEMORY_NAMESPACE` (env default `"ingestador:v1"`). -/
def MEMORY_NAMESPACE : String := "ingestador:v1"

/-- Config constant `DEFAULT_STAKE` (env default `float("1")`), as an exact rational. -/
def DEFAULT_STAKE : ℚ := 1

/-- Constant `ALLOWED_SELECTIONS = ["1", "X", "2", "1X", "X2", "12"]`. -/
def ALLOWED_SELECTIONS : List String := ["1", "X", "2", "1X", "X2", "12"]

/-- The characters Python's `str.strip()` / `re`'s `\s` treat as whitespace
(ASCII fragment: space, tab, newline, carriage return, vertical tab, form feed). -/
def isPyWs (c : Char) : Bool :=
  c = ' ' || c = '\t' || c = '\n' || c = '\r' || c = '\x0b' || c = '\x0c'

/-- Drop leading and trailing whitespace: model of Python `str.strip()`. -/
def trimWsList (l : List Char) : List Char :=
  ((l.dropWhile isPyWs).reverse.dropWhile isPyWs).reverse

/-- Model of Python `str.strip()` on strings. -/
def pyStrip (s : String) : String := ⟨trimWsList s.data⟩

/-- Model of Python `str.upper()` (character-wise, ASCII). -/
def pyUpper (s : String) : String := ⟨s.data.map Char.toUpper⟩

/-- Model of Python `str.lower()` (character-wise, ASCII). -/
def pyLower (s : String) : String := ⟨s.data.map Char.toLower⟩

/-- Model of Python `str.replace(",", ".")` (single-character pattern, so a
character-wise map). -/
def commaToDot (s : String) : String :=
  ⟨s.data.map (fun c => if c = ',' then '.' else c)⟩

/-- Numeric value of a digit list, most significant first. -/
def digitsVal (l : List Char) : Nat :=
  l.foldl (fun a c => 10 * a + (c.toNat - 48)) 0

/-- Model of Python `float(s)` restricted to plain decimal literals
(optional sign, digits, optional single dot; no exponent, no underscores,
no `inf`/`nan`) — the grammar of the inputs the claims quantify over.
Returns the exact rational value (the fractional part enters as
`frac / 10 ^ len`, written with `Rat.divInt`), `none` on anything else. -/
def parseDec? (s : String) : Option ℚ :=
  let cs := s.data
  let signAndRest : ℤ × List Char :=
    match cs with
    | '-' :: rest => (-1, rest)
    | '+' :: rest => (1, rest)
    | _ => (1, cs)
  let sign := signAndRest.1
  let cs1 := signAndRest.2
  let intPart := cs1.takeWhile Char.isDigit
  let cs2 := cs1.dropWhile Char.isDigit
  match cs2 with
  | [] =>
    if intPart.isEmpty then none
    else some (Rat.divInt (sign * (digitsVal intPart : ℤ)) 1)
  | '.' :: rest =>
    let frac := rest.takeWhile Char.isDigit
    let cs3 := rest.dropWhile Char.isDigit
    if cs3.isEmpty && !(intPart.isEmpty && frac.isEmpty) then
      some (Rat.divInt
        (sign * ((digitsVal intPart * 10 ^ frac.length + digitsVal frac : ℕ) : ℤ))
        ((10 ^ frac.length : ℕ) : ℤ))
    else none
  | _ => none

/-- The odds threshold `1.01` of `ask_odds`, as the exact rational `101/100`. -/
def oddsMin : ℚ := Rat.divInt 101 100

/-- The `Draft` dataclass and its field defaults. -/
structure Draft where
  date : String := ""
  teams : String := ""
  selection : String := ""
  odds : ℚ := 0
  stake : ℚ := DEFAULT_STAKE
  result : String := "Pendiente"
  betId : String := ""
  raw : String := ""
deriving DecidableEq, Repr

/-- The string handed to `hashlib.sha256` inside `Draft.dedupe_key`:
`f"{self.date}|{self.teams}|{self.selection}".lower()`. -/
def dedupe_base (d : Draft) : String :=
  pyLower (d.date ++ "|" ++ d.teams ++ "|" ++ d.selection)

/-- Embedding of `Draft.dedupe_key`: `f"{MEMORY_NAMESPACE}:{sha256(base).hexdigest()}"`,
with the digest abstracted as `hash` (any pure function of the base string). -/
def dedupe_key (hash : String → String) (d : Draft) : String :=
  MEMORY_NAMESPACE ++ ":" ++ hash (dedupe_base d)

/-! ## `_parse_teams`

Embedding of
`re.compile(r"([^\n\-–—]+?)\s*(?:vs\.?|v\.?|[-–—])\s*([^\n]+)", re.IGNORECASE).search(text)`
as an explicit backtracking matcher specialised to this pattern:
leftmost start wins; group 1 is lazy; `\s*` before the separator is a
maximal run (no separator starts with whitespace); the separator
alternatives are tried in the pattern's order (`vs.` before `vs` before
`v.` before `v` before a dash); `\s*` after the separator is greedy with
one-character backtracking so that group 2 (`[^\n]+`, greedy) is non-empty. -/

/-- The dash characters `[-–—]` of the pattern. -/
def isDashChar (c : Char) : Bool := c = '-' || c = '–' || c = '—'

/-- Characters admissible in group 1, i.e. `[^\n\-–—]`. -/
def isG1Char (c : Char) : Bool := !(c = '\n' || isDashChar c)

/-- All ways the separator `(?:vs\.?|v\.?|[-–—])` (case-insensitive) can match
at the head of the list, in the regex engine's preference order; each entry is
the remaining input after the separator. -/
def sepCandidates : List Char → List (List Char)
  | [] => []
  | c :: rest =>
    if c = 'v' || c = 'V' then
      match rest with
      | [] => [[]]
      | c2 :: rest2 =>
        if c2 = 's' || c2 = 'S' then
          match rest2 with
          | c3 :: rest3 => if c3 = '.' then [rest3, rest2, rest] else [rest2, rest]
          | [] => [rest2, rest]
        else if c2 = '.' then [rest2, rest]
        else [rest]
    else if isDashChar c then [rest]
    else []

/-- After the separator: match `\s*` (greedy, backtracking) then `([^\n]+)`
(greedy); return group 2 if the whole tail pattern can match. -/
def group2After (l : List Char) : Option (List Char) :=
  match l.dropWhile isPyWs with
  | [] =>
    match l.reverse.dropWhile (fun c => c = '\n') with
    | [] => none
    | c :: _ => some [c]
  | c :: rest => some ((c :: rest).takeWhile (fun c2 => !(c2 = '\n')))

/-- First `some` produced by `f` along the list (the regex engine's
"try the alternatives in order"). -/
def firstSome? {α β : Type} (f : α → Option β) : List α → Option β
  | [] => none
  | a :: t =>
    match f a with
    | some r => some r
    | none => firstSome? f t

/-- Try to finish the match right after group 1 (`g1rev`, reversed):
`\s*` (maximal, as no separator starts with whitespace), one of the
separator alternatives, then `group2After`. -/
def trySepHere (g1rev : List Char) (cs : List Char) : Option (List Char × List Char) :=
  firstSome? (fun rest => (group2After rest).map (fun g2 => (g1rev.reverse, g2)))
    (sepCandidates (cs.dropWhile isPyWs))

/-- Lazy group 1: at each length first try to complete the match, otherwise
extend group 1 by one admissible character. -/
def tryFrom (g1rev : List Char) : List Char → Option (List Char × List Char)
  | [] => trySepHere g1rev []
  | c :: rest =>
    match trySepHere g1rev (c :: rest) with
    | some r => some r
    | none => if isG1Char c then tryFrom (c :: g1rev) rest else none

/-- Model of `re.search`: try each start position left to right; group 1 needs at
least one admissible character. -/
def searchTeams : List Char → Option (List Char × List Char)
  | [] => none
  | c :: rest =>
    match (if isG1Char c then tryFrom [c] rest else none) with
    | some r => some r
    | none => searchTeams rest

/-- Model of `re.sub(r"\s+", " ", ·)`: collapse each whitespace run to one space. -/
def collapseWsAux : List Char → Bool → List Char
  | [], _ => []
  | c :: rest, prevWs =>
    if isPyWs c then
      if prevWs then collapseWsAux rest true else ' ' :: collapseWsAux rest true
    else c :: collapseWsAux rest false

/-- Model of `re.sub(r"\s+", " ", ·)` on a character list. -/
def collapseWs (l : List Char) : List Char := collapseWsAux l false

/-- Embedding of `_parse_teams(text)`: search the pattern, then return
`f"{collapse-strip(group1)} vs {collapse-strip(group2)}"`, or `None`. -/
def _parse_teams (s : String) : Option String :=
  match searchTeams s.data with
  | none => none
  | some (g1, g2) =>
    some ⟨trimWsList (collapseWs g1) ++ (' ' :: 'v' :: 's' :: ' ' :: trimWsList (collapseWs g2))⟩

/-! ## `_parse_date_ddmmyyyy`

Embedding of `re.search` for the pattern "word boundary, 1-2 digits, a slash
or dash, 1-2 digits, a slash or dash, 2-4 digits, word boundary", followed by
the `datetime` calendar check and `strftime("%d/%m/%Y")`. -/

/-- Python `\w` (ASCII fragment): letters, digits, underscore. -/
def isWordChar (c : Char) : Bool := c.isAlphanum || c = '_'

/-- Take exactly `n` digits from the front, or fail. -/
def takeExactDigits (n : Nat) (l : List Char) : Option (List Char × List Char) :=
  let pre := l.take n
  if pre.length = n && pre.all Char.isDigit then some (pre, l.drop n) else none

/-- The date pattern's field separator: a slash or a dash. -/
def isDateSep (c : Char) : Bool := c = '/' || c = '-'

/-- End-of-match `\b`: the next character, if any, is not a word character. -/
def endBoundary (l : List Char) : Bool :=
  match l with
  | [] => true
  | c :: _ => !isWordChar c

/-- Try the date pattern at this position (greedy `{1,2}` / `{2,4}` groups
with backtracking, then the closing `\b`). -/
def tryDateAt (l : List Char) : Option (Nat × Nat × Nat) :=
  [2, 1].findSome? fun n1 =>
    match takeExactDigits n1 l with
    | none => none
    | some (d1, r1) =>
      match r1 with
      | [] => none
      | s1 :: r2 =>
        if isDateSep s1 then
          [2, 1].findSome? fun n2 =>
            match takeExactDigits n2 r2 with
            | none => none
            | some (d2, r3) =>
              match r3 with
              | [] => none
              | s2 :: r4 =>
                if isDateSep s2 then
                  [4, 3, 2].findSome? fun n3 =>
                    match takeExactDigits n3 r4 with
                    | none => none
                    | some (d3, r5) =>
                      if endBoundary r5 then
                        some (digitsVal d1, digitsVal d2, digitsVal d3)
                      else none
                else none
        else none

/-- Scan for the leftmost match; the opening `\b` holds exactly when the
previous character is not a word character (digits are word characters). -/
def searchDateAux : Bool → List Char → Option (Nat × Nat × Nat)
  | _, [] => none
  | prevWord, c :: rest =>
    match (if !prevWord && c.isDigit then tryDateAt (c :: rest) else none) with
    | some r => some r
    | none => searchDateAux (isWordChar c) rest

/-- Gregorian leap year, as implemented by `datetime`. -/
def isLeap (y : Nat) : Bool := y % 4 = 0 && (y % 100 ≠ 0 || y % 400 = 0)

/-- Days in a month, as implemented by `datetime`. -/
def daysInMonth (y m : Nat) : Nat :=
  if m = 2 then (if isLeap y then 29 else 28)
  else if m = 4 || m = 6 || m = 9 || m = 11 then 30
  else 31

/-- Validity check of the `datetime(year, month, day)` constructor. -/
def validDate (y m d : Nat) : Bool :=
  1 ≤ y && y ≤ 9999 && 1 ≤ m && m ≤ 12 && 1 ≤ d && d ≤ daysInMonth y m

/-- Zero-pad to two digits (`%d`, `%m`). -/
def pad2 (n : Nat) : String := if n < 10 then "0" ++ toString n else toString n

/-- Embedding of `_parse_date_ddmmyyyy(text)`: first regex match, two-digit years mapped
into the 2000s, invalid calendar dates yield `None`. -/
def _parse_date_ddmmyyyy (s : String) : Option String :=
  match searchDateAux false s.data with
  | none => none
  | some (d, m, y0) =>
    let y := if y0 < 100 then y0 + 2000 else y0
    if validDate y m d then some (pad2 d ++ "/" ++ pad2 m ++ "/" ++ toString y)
    else none

/-- Embedding of `smart_seed(text)`, with the ambient `today_str()` passed explicitly. -/
def smart_seed (today : String) (text : String) : Draft :=
  { raw := text
    date := (_parse_date_ddmmyyyy text).getD today
    teams := (_parse_teams text).getD "" }

/-! ## Conversation state machine

`ASK_TEAMS, ASK_SELECTION, ASK_ODDS, ASK_STAKE, CONFIRM = range(5)`; the
session is the per-(chat, user) `context.user_data["draft"]` plus the
`ConversationHandler` state. `gen_bet_id()` draws on the wall clock, so each
step takes the identifier it would generate as an explicit `fresh` argument. -/

inductive ConvState where
  | ASK_TEAMS | ASK_SELECTION | ASK_ODDS | ASK_STAKE | CONFIRM
deriving DecidableEq, Repr

/-- One conversation's stored state: the draft plus the FSM state. -/
structure Session where
  draft : Draft
  state : ConvState
deriving DecidableEq, Repr

/-- The inbound updates the handlers distinguish: a text message, the four
callback-query buttons, and the `/cancel` command. -/
inductive Msg where
  | text (raw : String)
  | cbStakeDefault | cbStakeChange | cbConfirm | cbCancel | cmdCancel
deriving DecidableEq, Repr

/-- Python's substring containment `needle in haystack`. -/
def containsSub (needle : List Char) : List Char → Bool
  | [] => needle.isEmpty
  | c :: t => needle.isPrefixOf (c :: t) || containsSub needle t

/-- Model of `" vs " in txt or " VS " in txt.upper()` (the team check used by
`receive_text` and `ask_teams` for an already-seeded draft). -/
def hasVsToken (txt : String) : Bool :=
  containsSub (' ' :: 'v' :: 's' :: ' ' :: []) txt.data ||
  containsSub (' ' :: 'V' :: 'S' :: ' ' :: []) (pyUpper txt).data

/-- Embedding of `ask_selection`: `"Otro"` keeps the state; an enumerated choice is stored
upper-cased; anything else (including the empty string) is stored verbatim
(stripped) as a free-text selection. -/
def ask_selection_step (d : Draft) (raw : String) : Session :=
  let choice := pyUpper (pyStrip raw)
  if choice = "OTRO" then ⟨d, .ASK_SELECTION⟩
  else if choice ≠ "" ∧ ALLOWED_SELECTIONS.contains choice then
    ⟨{ d with selection := choice }, .ASK_ODDS⟩
  else ⟨{ d with selection := pyStrip raw }, .ASK_ODDS⟩

/-- Embedding of `ask_odds`: `draft.odds = float(text.strip().replace(",", "."))` is
assigned first; only then is `draft.odds < 1.01` checked (raising back into
the same state). A failed `float` leaves the draft untouched. -/
def ask_odds_step (d : Draft) (raw : String) : Session :=
  match parseDec? (commaToDot (pyStrip raw)) with
  | none => ⟨d, .ASK_ODDS⟩
  | some q =>
    if q < oddsMin then ⟨{ d with odds := q }, .ASK_ODDS⟩
    else ⟨{ d with odds := q }, .ASK_STAKE⟩

/-- Embedding of `stake_text`: a parsed stake must be `> 0` *before* the draft is touched;
on success the stake is stored and `betId` is freshly generated. -/
def stake_text_step (fresh : String) (d : Draft) (raw : String) : Session :=
  match parseDec? (commaToDot (pyStrip raw)) with
  | none => ⟨d, .ASK_STAKE⟩
  | some st =>
    if st ≤ 0 then ⟨d, .ASK_STAKE⟩
    else ⟨{ d with stake := st, betId := fresh }, .CONFIRM⟩

/-- Embedding of `receive_text` (the catch-all text entry point): route by which draft
fields are still falsy; with no draft, seed one via `smart_seed`. -/
def receive_text_step (today fresh : String) (sess : Option Session) (raw : String) :
    Option Session :=
  let txt := pyStrip raw
  match sess with
  | some s =>
    let d := s.draft
    if d.teams = "" then
      if hasVsToken txt then some ⟨{ d with teams := txt }, .ASK_SELECTION⟩
      else some ⟨d, .ASK_TEAMS⟩
    else if d.selection = "" then some (ask_selection_step d raw)
    else if d.odds = 0 ∨ d.odds < oddsMin then some (ask_odds_step d raw)
    else some (stake_text_step fresh d raw)
  | none =>
    let d := smart_seed today txt
    if d.teams = "" then some ⟨d, .ASK_TEAMS⟩ else some ⟨d, .ASK_SELECTION⟩

/-- One dispatch round of the `ConversationHandler` (`allow_reentry=True`):
any text message matches the `receive_text` entry point before the per-state
handlers; callback queries are only handled by the current state's handlers
(`ask_stake` in `ASK_STAKE`, `confirm` in `CONFIRM`); `/cancel` clears the
session. `confirm`/`cancel` callbacks end the conversation and clear
`user_data`; the external effects of `confirm` are modelled separately by
`confirm_commit`. -/
def handle (today fresh : String) (sess : Option Session) : Msg → Option Session
  | .text raw => receive_text_step today fresh sess raw
  | .cbStakeDefault =>
    match sess with
    | some ⟨d, .ASK_STAKE⟩ => some ⟨{ d with stake := DEFAULT_STAKE, betId := fresh }, .CONFIRM⟩
    | _ => sess
  | .cbStakeChange =>
    match sess with
    | some ⟨d, .ASK_STAKE⟩ => some ⟨d, .ASK_STAKE⟩
    | _ => sess
  | .cbConfirm =>
    match sess with
    | some ⟨_, .CONFIRM⟩ => none
    | _ => sess
  | .cbCancel =>
    match sess with
    | some ⟨_, .CONFIRM⟩ => none
    | _ => sess
  | .cmdCancel => none

/-- Run a conversation: each element pairs the `gen_bet_id()` value that step
would draw with the inbound update. -/
def runConv (today : String) : Option Session → List (String × Msg) → Option Session
  | sess, [] => sess
  | sess, (fresh, m) :: rest => runConv today (handle today fresh sess m) rest

/-! ## Commit protocol (`confirm`) and the dedupe gate -/

/-- Observable outcome of the Upstash `EXISTS` round-trip. -/
inductive ExistsOutcome where
  | found | notFound | transportError
deriving DecidableEq, Repr

/-- Embedding of `upstash_exists`: `False` when the store is unconfigured, `True` exactly
on a successful `result == 1` reply, and — `except Exception: return False` —
`False` on any network/timeout error. -/
def upstash_exists_m (redisConfigured : Bool) (o : ExistsOutcome) : Bool :=
  if !redisConfigured then false
  else
    match o with
    | .found => true
    | .notFound => false
    | .transportError => false

/-- Embedding of the `upstash_setex` expiry: `ttl = max(60, ttl_days * 24 * 3600)`. -/
def setexTTL (ttlDays : ℤ) : ℤ := max 60 (ttlDays * 24 * 3600)

/-- The JSON body `send_to_sheets` POSTs in its single request. -/
structure SheetPayload where
  date : String
  teams : String
  selection : String
  odds : ℚ
  stake : ℚ
  result : String
  betId : String
deriving DecidableEq, Repr

/-- The payload built from a draft by `send_to_sheets`. -/
def payload (d : Draft) : SheetPayload :=
  { date := d.date, teams := d.teams, selection := d.selection, odds := d.odds
    stake := d.stake, result := d.result, betId := d.betId }

/-- The dedupe-relevant configuration: `DEDUPE_ENABLED`, whether
`REDIS_REST_URL`/`REDIS_REST_TOKEN` are both set, and `MEMORY_TTL_DAYS`. -/
structure DedupCfg where
  dedupeEnabled : Bool
  redisConfigured : Bool
  ttlDays : ℤ
deriving DecidableEq, Repr

/-- External writes issued by one run of the `confirm` handler. -/
structure CommitOutcome where
  /-- The body of the Sheets POST, `none` if no request was issued. -/
  sheetsRequest : Option SheetPayload
  /-- The `SETEX` recorded in the dedupe store: key and expiry seconds,
  `none` if no fingerprint was recorded. -/
  dedupeSet : Option (String × ℤ)
  /-- Whether the handler cleared the session and ended the conversation. -/
  sessionEnded : Bool
deriving DecidableEq, Repr

/-- The `confirm` handler on the `"confirm"` callback: when dedupe is
enabled, check the fingerprint first and abort (write nothing) on a hit;
otherwise POST the whole record in one request and, only if that reply was
ok, record the fingerprint with expiry `setexTTL`. `user_data` is cleared
on every path. `sheetsOk` is true iff the POST succeeded with `ok: true`. -/
def confirm_commit (hash : String → String) (cfg : DedupCfg) (d : Draft)
    (ex : ExistsOutcome) (sheetsOk : Bool) : CommitOutcome :=
  if cfg.dedupeEnabled ∧ upstash_exists_m cfg.redisConfigured ex then
    ⟨none, none, true⟩
  else
    ⟨some (payload d),
     if sheetsOk ∧ cfg.dedupeEnabled ∧ cfg.redisConfigured then
       some (dedupe_key hash d, setexTTL cfg.ttlDays)
     else none,
     true⟩

/-! ## Authorization -/

/-- Embedding of `is_allowed_user`: everyone passes when `APUESTA_ALLOWED_USER_IDS` is
empty; otherwise membership decides (a missing Telegram user id is `None`,
never a member). This is the gate of `/apuesta` and `/modificarcelda`. -/
def is_allowed_user (allowed : List Int) (uid : Option Int) : Bool :=
  if allowed.isEmpty then true
  else
    match uid with
    | some u => allowed.contains u
    | none => false

/-! ## Auxiliary predicates and concrete data used by the theorems -/

/-- Selections in states `ASK_STAKE`/`CONFIRM` are never empty: the routing
of `receive_text` treats an empty selection as "not yet asked". -/
def selInv : Option Session → Prop
  | none => True
  | some s => (s.state = .ASK_STAKE ∨ s.state = .CONFIRM) → s.draft.selection ≠ ""

/-- A team-name character for which the separator pattern is inert:
an ASCII letter other than `v`/`V`. -/
def teamChar (c : Char) : Prop := c.isAlpha = true ∧ c ≠ 'v' ∧ c ≠ 'V'

instance (c : Char) : Decidable (teamChar c) :=
  inferInstanceAs (Decidable (_ ∧ _ ∧ _))

/-- A horizontal-whitespace character: whitespace other than a newline
(group 1 of the pattern cannot contain a newline, and group 2 stops at
one, so newlines are kept out of the claimed input family). -/
def hwsChar (c : Char) : Prop := isPyWs c = true ∧ c ≠ '\n'

instance (c : Char) : Decidable (hwsChar c) :=
  inferInstanceAs (Decidable (_ ∧ _))

/-- Relates a team name, given as its list of words, to one of its
appearances in the input: the same words joined by arbitrary non-empty runs
of non-newline whitespace. -/
inductive Fattens : List (List Char) → List Char → Prop where
  | single (w : List Char) (hw : w ≠ []) (hc : ∀ c ∈ w, teamChar c) :
      Fattens [w] w
  | more (w g : List Char) (ws : List (List Char)) (fat : List Char)
      (hw : w ≠ []) (hc : ∀ c ∈ w, teamChar c)
      (hg : g ≠ []) (hgc : ∀ c ∈ g, hwsChar c)
      (h : Fattens ws fat) : Fattens (w :: ws) (w ++ g ++ fat)

/-- The words of a team name joined by single spaces: the normalised form
the claim expects in the parser's output. -/
def joinWords : List (List Char) → List Char
  | [] => []
  | [w] => w
  | w :: ws => w ++ ' ' :: joinWords ws

/-- Lists that the lazy group 1 consumes exactly on the claimed inputs:
words of team characters and runs of non-newline whitespace, ending in a
word. -/
inductive PreOk : List Char → Prop where
  | word (w : List Char) (hw : w ≠ []) (hc : ∀ c ∈ w, teamChar c) : PreOk w
  | wordpre (w p : List Char) (hw : w ≠ []) (hc : ∀ c ∈ w, teamChar c)
      (h : PreOk p) : PreOk (w ++ p)
  | wspre (g p : List Char) (hgc : ∀ c ∈ g, hwsChar c) (h : PreOk p) :
      PreOk (g ++ p)

/-- The matcher's continuation property: from any reversed group-1 prefix,
running `tryFrom` on `X` consumes exactly `K` further characters into
group 1 and yields `g2v` as group 2. -/
def MatchCont (g2v X K : List Char) : Prop :=
  ∀ g1rev : List Char, tryFrom g1rev X = some (g1rev.reverse ++ K, g2v)

/-- A fully populated draft ready for confirmation. -/
def dC1 : Draft :=
  { date := "01/01/2025", teams := "Roma vs Lazio", selection := "1"
    odds := Rat.divInt 37 20, stake := 1, betId := "B1" }

/-- Draft whose selection is upper-case `"X"`. -/
def c2case1 : Draft := { date := "01/01/2025", teams := "Roma vs Lazio", selection := "X" }

/-- Same draft with the selection's case flipped to `"x"`. -/
def c2case2 : Draft := { date := "01/01/2025", teams := "Roma vs Lazio", selection := "x" }

/-- Same draft with a genuinely different selection `"2"`. -/
def c2case3 : Draft := { date := "01/01/2025", teams := "Roma vs Lazio", selection := "2" }

/-- A fully populated draft used for the transport-error commit run. -/
def dC7 : Draft :=
  { date := "02/01/2025", teams := "Milan vs Inter", selection := "2"
    odds := 2, stake := 1, betId := "B7" }

/-- A complete conversation: seed, selection, odds, stake (generating `"B1"`). -/
def c4trace1 : List (String × Msg) :=
  [("F0", .text "A vs B"), ("F0", .text "1"), ("F0", .text "2,0"), ("B1", .text "5")]

/-- The same conversation with one more numeric text typed while the bot is
awaiting confirmation (generating `"B2"`). -/
def c4trace2 : List (String × Msg) := c4trace1 ++ [("B2", .text "7")]

/-- A draft mid-conversation, awaiting its stake. -/
def dC4w : Draft :=
  { date := "01/01/2025", teams := "A vs B", selection := "1", odds := 2 }

/-- Seed, then a whitespace-only selection message. -/
def c10prefix : List (String × Msg) := [("F0", .text "A vs B"), ("F0", .text " ")]

/-- The same conversation followed by the odds the user then types. -/
def c10trace : List (String × Msg) := c10prefix ++ [("F0", .text "1.85")]

end BotIngestador

namespace BotIngestador

/-! ## Generic helper lemmas -/

/-- Appending on the left of `String.append` cancels. -/
theorem string_append_left_cancel (s t u : String) (h : s ++ t = s ++ u) : t = u := by
  obtain ⟨a⟩ := s
  obtain ⟨b⟩ := t
  obtain ⟨c⟩ := u
  have hd : a ++ b = a ++ c := congrArg String.data h
  exact congrArg String.mk (List.append_cancel_left hd)

/-! ## C1 -/

/-- C1: under the deferred single-commit policy, with dedupe enabled and the
store configured, confirming first checks the fingerprint; on a hit nothing
is written and the session ends; on a miss the whole record goes out in one
request and the fingerprint is recorded (with expiry `setexTTL`, at least 60
seconds) exactly when that write succeeds. -/
theorem C1_deferred_commit_protocol (hash : String → String) (cfg : DedupCfg) (d : Draft)
    (ex : ExistsOutcome) (sheetsOk : Bool)
    (hEn : cfg.dedupeEnabled = true) (hCf : cfg.redisConfigured = true) :
    (upstash_exists_m cfg.redisConfigured ex = true →
      confirm_commit hash cfg d ex sheetsOk = ⟨none, none, true⟩) ∧
    (upstash_exists_m cfg.redisConfigured ex = false →
      (confirm_commit hash cfg d ex sheetsOk).sheetsRequest = some (payload d) ∧
      (confirm_commit hash cfg d ex sheetsOk).sessionEnded = true ∧
      (confirm_commit hash cfg d ex sheetsOk).dedupeSet =
        (if sheetsOk then some (dedupe_key hash d, setexTTL cfg.ttlDays) else none) ∧
      60 ≤ setexTTL cfg.ttlDays) := by
  constructor
  · intro hx
    simp [confirm_commit, hEn, hx]
  · intro hx
    rw [hCf] at hx
    refine ⟨?_, ?_, ?_, le_max_left _ _⟩ <;>
      cases sheetsOk <;> simp [confirm_commit, hEn, hCf, hx]

/-- Witness: a concrete miss-then-success confirmation issues the single
full-record request. -/
theorem C1_witness :
    (confirm_commit id ⟨true, true, 30⟩ dC1 .notFound true).sheetsRequest = some (payload dC1) :=
  ((C1_deferred_commit_protocol id ⟨true, true, 30⟩ dC1 .notFound true rfl rfl).2 rfl).1

/-! ## C2 -/

/-- C2 counterexample: two drafts that differ in the `selection` field (a
field used in the fingerprint) but produce the *same* hash input — the key
lower-cases the concatenation — hence the same key for every hash function;
shown here for the identity hash. -/
theorem C2_counterexample :
    c2case1.selection ≠ c2case2.selection ∧
    dedupe_base c2case1 = dedupe_base c2case2 ∧
    dedupe_key id c2case1 = dedupe_key id c2case2 := by
  refine ⟨by decide, by decide, by decide⟩

/-- C2 amended: the key is deterministic, and two drafts get different keys
whenever their lower-cased `date|teams|selection` strings differ and the
hash is collision-free there; drafts differing only by letter case collide. -/
theorem C2_amended (hash : String → String) (d1 d2 : Draft) :
    dedupe_key hash d1 = dedupe_key hash d1 ∧
    (Function.Injective hash → dedupe_base d1 ≠ dedupe_base d2 →
      dedupe_key hash d1 ≠ dedupe_key hash d2) :=
  ⟨rfl, fun hinj hne heq => hne (hinj (string_append_left_cancel _ _ _ heq))⟩

/-- Witness: genuinely different selections give different keys under an
injective hash. -/
theorem C2_witness : dedupe_key id c2case1 ≠ dedupe_key id c2case3 :=
  (C2_amended id c2case1 c2case3).2 Function.injective_id (by decide)

/-! ## C3 -/

/-- C3 counterexample: in the odds state, the numeric input `"0.5"` parses,
is written into the draft *before* the `≥ 1.01` check, and the failed check
leaves the invalid value `1/2` (neither a valid odds nor the default `0`)
stored while the state stays `ASK_ODDS`. -/
theorem C3_counterexample :
    ask_odds_step {} "0.5" = ⟨{ odds := Rat.divInt 1 2 }, .ASK_ODDS⟩ ∧
    (Rat.divInt 1 2 < oddsMin ∧ Rat.divInt 1 2 ≠ 0) := by
  refine ⟨by decide, by decide, by decide⟩

/-- C3 amended: the stake invariant holds in full (stake is mutated only to
a successfully parsed positive value, and `betId` with it); odds is mutated
only to a successfully parsed value, but that value is stored even when it
fails the `≥ 1.01` validity check (the state then stays `ASK_ODDS`);
non-numeric input mutates nothing. -/
theorem C3_amended (fresh : String) (d : Draft) (raw : String) :
    (parseDec? (commaToDot (pyStrip raw)) = none →
      ask_odds_step d raw = ⟨d, .ASK_ODDS⟩ ∧ stake_text_step fresh d raw = ⟨d, .ASK_STAKE⟩) ∧
    (∀ st : ℚ, parseDec? (commaToDot (pyStrip raw)) = some st → st ≤ 0 →
      stake_text_step fresh d raw = ⟨d, .ASK_STAKE⟩) ∧
    (∀ st : ℚ, parseDec? (commaToDot (pyStrip raw)) = some st → 0 < st →
      stake_text_step fresh d raw = ⟨{ d with stake := st, betId := fresh }, .CONFIRM⟩) ∧
    (∀ q : ℚ, parseDec? (commaToDot (pyStrip raw)) = some q → q < oddsMin →
      ask_odds_step d raw = ⟨{ d with odds := q }, .ASK_ODDS⟩) := by
  refine ⟨fun h => ⟨?_, ?_⟩, fun st h hle => ?_, fun st h hpos => ?_, fun q h hlt => ?_⟩
  · simp [ask_odds_step, h]
  · simp [stake_text_step, h]
  · simp [stake_text_step, h, hle]
  · simp [stake_text_step, h, not_le.mpr hpos]
  · simp [ask_odds_step, h, hlt]

/-- Witness: the stake `"2,5"` is parsed, checked positive, and only then
stored together with the fresh bet id. -/
theorem C3_witness :
    stake_text_step "B9" {} "2,5" = ⟨{ stake := Rat.divInt 5 2, betId := "B9" }, .CONFIRM⟩ :=
  (C3_amended "B9" {} "2,5").2.2.1 (Rat.divInt 5 2) (by decide) (by decide)

/-! ## C6 -/

/-- C6: an odds input (comma or dot decimal separator) whose value is
`≥ 1.01` is accepted with exactly that value and the conversation moves to
the stake state; a parsed value `< 1.01` or a non-numeric input leaves the
state at `ASK_ODDS`. -/
theorem C6_odds_gate (d : Draft) (raw : String) :
    (∀ q : ℚ, parseDec? (commaToDot (pyStrip raw)) = some q →
      (oddsMin ≤ q → ask_odds_step d raw = ⟨{ d with odds := q }, .ASK_STAKE⟩) ∧
      (q < oddsMin → (ask_odds_step d raw).state = .ASK_ODDS)) ∧
    (parseDec? (commaToDot (pyStrip raw)) = none → ask_odds_step d raw = ⟨d, .ASK_ODDS⟩) := by
  refine ⟨fun q h => ⟨fun hge => ?_, fun hlt => ?_⟩, fun h => ?_⟩
  · simp [ask_odds_step, h, not_lt.mpr hge]
  · simp [ask_odds_step, h, hlt]
  · simp [ask_odds_step, h]

/-- Witness: `"1,85"` is accepted as `37/20` and advances; `"0.99"` is
rejected and the state remains `ASK_ODDS`. -/
theorem C6_witness :
    ask_odds_step {} "1,85" = ⟨{ odds := Rat.divInt 37 20 }, .ASK_STAKE⟩ ∧
    (ask_odds_step {} "0.99").state = .ASK_ODDS :=
  ⟨((C6_odds_gate {} "1,85").1 (Rat.divInt 37 20) (by decide)).1 (by decide),
   ((C6_odds_gate {} "0.99").1 (Rat.divInt 99 100) (by decide)).2 (by decide)⟩

/-! ## C7 -/

/-- C7 counterexample: a transport error during the pre-commit duplicate
check does *not* abort — the record is still posted to the external store
(`upstash_exists` swallows the exception and reports "not present"). -/
theorem C7_counterexample :
    (confirm_commit id ⟨true, true, 30⟩ dC7 .transportError true).sheetsRequest =
      some (payload dC7) := by decide

/-- C7 amended: a transport failure during the duplicate check behaves
exactly like "fingerprint absent": the commit proceeds and the single
full-record request is issued. -/
theorem C7_amended (hash : String → String) (cfg : DedupCfg) (d : Draft) (sheetsOk : Bool) :
    confirm_commit hash cfg d .transportError sheetsOk =
      confirm_commit hash cfg d .notFound sheetsOk ∧
    (confirm_commit hash cfg d .transportError sheetsOk).sheetsRequest = some (payload d) := by
  constructor <;> cases h : cfg.redisConfigured <;> simp [confirm_commit, upstash_exists_m, h]

/-! ## C8 -/

/-- C8: with an empty allow-list every user is permitted; a user is denied
exactly when the list is non-empty and the user's identity is not in it
(a missing identity is never a member). -/
theorem C8_allowlist (allowed : List Int) (uid : Option Int) :
    (allowed = [] → is_allowed_user allowed uid = true) ∧
    (is_allowed_user allowed uid = false ↔
      (allowed ≠ [] ∧ ∀ u, uid = some u → u ∉ allowed)) := by
  constructor
  · intro h
    subst h
    simp [is_allowed_user]
  · cases uid with
    | none => cases allowed <;> simp [is_allowed_user]
    | some u => cases allowed <;> simp [is_allowed_user]

/-- Witness: the empty allow-list admits user 5; the list `[1, 2]` denies
user 5. -/
theorem C8_witness :
    is_allowed_user [] (some 5) = true ∧ is_allowed_user [1, 2] (some 5) = false :=
  ⟨(C8_allowlist [] (some 5)).1 rfl,
   (C8_allowlist [1, 2] (some 5)).2.mpr ⟨by decide, by intro u hu; cases hu; decide⟩⟩

/-! ## C4 -/

/-- The `ask_selection` step never touches the bet id. -/
theorem ask_selection_step_betId (d : Draft) (raw : String) :
    (ask_selection_step d raw).draft.betId = d.betId := by
  unfold ask_selection_step
  dsimp only
  split
  · rfl
  · split <;> rfl

/-- The `ask_odds` step never touches the bet id. -/
theorem ask_odds_step_betId (d : Draft) (raw : String) :
    (ask_odds_step d raw).draft.betId = d.betId := by
  rcases hp : parseDec? (commaToDot (pyStrip raw)) with _ | q
  · simp [ask_odds_step, hp]
  · simp only [ask_odds_step, hp]
    split <;> rfl

/-- The `stake_text` step either keeps the bet id or installs the freshly generated
one while moving to `CONFIRM`. -/
theorem stake_text_step_betId (fresh : String) (d : Draft) (raw : String) :
    (stake_text_step fresh d raw).draft.betId = d.betId ∨
      ((stake_text_step fresh d raw).draft.betId = fresh ∧
        (stake_text_step fresh d raw).state = .CONFIRM) := by
  rcases hp : parseDec? (commaToDot (pyStrip raw)) with _ | st
  · left
    simp [stake_text_step, hp]
  · simp only [stake_text_step, hp]
    split
    · left
      rfl
    · right
      exact ⟨rfl, rfl⟩

/-- C4 counterexample: in one conversation (`A vs B` → `1` → `2,0` → `5`) a
bet id `B1` is generated; typing the numeric text `7` while the bot awaits
confirmation re-enters the stake step and replaces it with the newly
generated `B2`. -/
theorem C4_counterexample :
    (runConv "01/01/2025" none c4trace1).map (fun s => (s.draft.betId, s.state)) =
      some ("B1", .CONFIRM) ∧
    (runConv "01/01/2025" none c4trace2).map (fun s => (s.draft.betId, s.state)) =
      some ("B2", .CONFIRM) ∧
    ("B1" : String) ≠ "B2" := by
  refine ⟨by decide, by decide, by decide⟩

/-- C4 amended: a dispatch step changes `betId` only by installing the
freshly generated identifier upon a successful stake entry (moving to
`CONFIRM`) — the generation is unconditional there, so re-entering the stake
step (e.g. numeric text during confirmation) regenerates it; a conversation
whose stake step succeeds exactly once generates `betId` exactly once, and a
freshly seeded draft has an empty `betId`. -/
theorem C4_amended (today fresh : String) (sess : Option Session) (m : Msg) (s2 : Session)
    (h : handle today fresh sess m = some s2) :
    (sess = none → s2.draft.betId = "") ∧
    (∀ s1, sess = some s1 →
      s2.draft.betId = s1.draft.betId ∨ (s2.draft.betId = fresh ∧ s2.state = .CONFIRM)) := by
  constructor
  · rintro rfl
    cases m with
    | text raw =>
      simp only [handle, receive_text_step] at h
      split at h <;> (simp only [Option.some.injEq] at h; subst h; simp [smart_seed])
    | cbStakeDefault => simp [handle] at h
    | cbStakeChange => simp [handle] at h
    | cbConfirm => simp [handle] at h
    | cbCancel => simp [handle] at h
    | cmdCancel => simp [handle] at h
  · rintro ⟨d, st⟩ rfl
    cases m with
    | text raw =>
      simp only [handle, receive_text_step] at h
      split at h
      · split at h <;> (simp only [Option.some.injEq] at h; subst h; left; rfl)
      · split at h
        · simp only [Option.some.injEq] at h
          subst h
          left
          exact ask_selection_step_betId d raw
        · split at h <;> (simp only [Option.some.injEq] at h; subst h)
          · left
            exact ask_odds_step_betId d raw
          · exact stake_text_step_betId fresh d raw
    | cbStakeDefault =>
      cases st <;> simp only [handle, Option.some.injEq] at h <;> subst h
      · left; rfl
      · left; rfl
      · left; rfl
      · right; exact ⟨rfl, rfl⟩
      · left; rfl
    | cbStakeChange =>
      cases st <;> simp only [handle, Option.some.injEq] at h <;> subst h <;> left <;> rfl
    | cbConfirm =>
      cases st <;> simp only [handle, Option.some.injEq] at h <;>
        first
        | (subst h; left; rfl)
        | exact Option.noConfusion h
    | cbCancel =>
      cases st <;> simp only [handle, Option.some.injEq] at h <;>
        first
        | (subst h; left; rfl)
        | exact Option.noConfusion h
    | cmdCancel => simp [handle] at h

/-- Witness: a freshly seeded conversation carries an empty `betId`. -/
theorem C4_witness : (smart_seed "01/01/2025" (pyStrip "A vs B")).betId = "" :=
  (C4_amended "01/01/2025" "F" none (.text "A vs B")
    ⟨smart_seed "01/01/2025" (pyStrip "A vs B"), .ASK_SELECTION⟩ (by decide)).1 rfl

/-! ## C10 -/

/-- A session whose state is neither `ASK_STAKE` nor `CONFIRM` satisfies the
selection invariant vacuously. -/
theorem selInv_some_of_state (s : Session) (h1 : s.state ≠ .ASK_STAKE)
    (h2 : s.state ≠ .CONFIRM) : selInv (some s) :=
  fun hst => (hst.elim h1 h2).elim

/-- A session with a non-empty selection satisfies the selection invariant. -/
theorem selInv_some_of_sel (s : Session) (hsel : s.draft.selection ≠ "") : selInv (some s) :=
  fun _ => hsel

/-- The `ask_selection` step only ever leads to `ASK_SELECTION` or `ASK_ODDS`. -/
theorem ask_selection_step_state (d : Draft) (raw : String) :
    (ask_selection_step d raw).state = .ASK_SELECTION ∨
      (ask_selection_step d raw).state = .ASK_ODDS := by
  unfold ask_selection_step
  dsimp only
  split
  · left
    rfl
  · split
    · right
      rfl
    · right
      rfl

/-- The `ask_odds` step never touches the selection. -/
theorem ask_odds_step_selection (d : Draft) (raw : String) :
    (ask_odds_step d raw).draft.selection = d.selection := by
  rcases hp : parseDec? (commaToDot (pyStrip raw)) with _ | q
  · simp [ask_odds_step, hp]
  · simp only [ask_odds_step, hp]
    split <;> rfl

/-- The `stake_text` step never touches the selection. -/
theorem stake_text_step_selection (fresh : String) (d : Draft) (raw : String) :
    (stake_text_step fresh d raw).draft.selection = d.selection := by
  rcases hp : parseDec? (commaToDot (pyStrip raw)) with _ | st
  · simp [stake_text_step, hp]
  · simp only [stake_text_step, hp]
    split <;> rfl

/-- One dispatch round preserves the selection invariant. -/
theorem selInv_handle (today fresh : String) (sess : Option Session) (m : Msg)
    (h : selInv sess) : selInv (handle today fresh sess m) := by
  cases m with
  | text raw =>
    cases sess with
    | none =>
      simp only [handle, receive_text_step]
      split
      · exact selInv_some_of_state _ nofun nofun
      · exact selInv_some_of_state _ nofun nofun
    | some s1 =>
      obtain ⟨d, st⟩ := s1
      simp only [handle, receive_text_step]
      by_cases ht : d.teams = ""
      · rw [if_pos ht]
        split
        · exact selInv_some_of_state _ nofun nofun
        · exact selInv_some_of_state _ nofun nofun
      · rw [if_neg ht]
        by_cases hsel : d.selection = ""
        · rw [if_pos hsel]
          rcases ask_selection_step_state d raw with hs | hs <;>
            exact selInv_some_of_state _ (fun e => by rw [hs] at e; cases e)
              (fun e => by rw [hs] at e; cases e)
        · rw [if_neg hsel]
          by_cases ho : d.odds = 0 ∨ d.odds < oddsMin
          · rw [if_pos ho]
            exact selInv_some_of_sel _ (by rw [ask_odds_step_selection]; exact hsel)
          · rw [if_neg ho]
            exact selInv_some_of_sel _ (by rw [stake_text_step_selection]; exact hsel)
  | cbStakeDefault =>
    cases sess with
    | none => exact h
    | some s1 =>
      obtain ⟨d, st⟩ := s1
      cases st with
      | ASK_TEAMS => exact h
      | ASK_SELECTION => exact h
      | ASK_ODDS => exact h
      | ASK_STAKE => exact fun _ => h (Or.inl rfl)
      | CONFIRM => exact h
  | cbStakeChange =>
    cases sess with
    | none => exact h
    | some s1 =>
      obtain ⟨d, st⟩ := s1
      cases st with
      | ASK_TEAMS => exact h
      | ASK_SELECTION => exact h
      | ASK_ODDS => exact h
      | ASK_STAKE => exact h
      | CONFIRM => exact h
  | cbConfirm =>
    cases sess with
    | none => exact h
    | some s1 =>
      obtain ⟨d, st⟩ := s1
      cases st with
      | ASK_TEAMS => exact h
      | ASK_SELECTION => exact h
      | ASK_ODDS => exact h
      | ASK_STAKE => exact h
      | CONFIRM => exact trivial
  | cbCancel =>
    cases sess with
    | none => exact h
    | some s1 =>
      obtain ⟨d, st⟩ := s1
      cases st with
      | ASK_TEAMS => exact h
      | ASK_SELECTION => exact h
      | ASK_ODDS => exact h
      | ASK_STAKE => exact h
      | CONFIRM => exact trivial
  | cmdCancel => exact trivial

/-- Whole conversations preserve the selection invariant. -/
theorem selInv_runConv (today : String) (msgs : List (String × Msg)) :
    ∀ sess, selInv sess → selInv (runConv today sess msgs) := by
  induction msgs with
  | nil => exact fun _ h => h
  | cons p rest ih =>
    intro sess h
    obtain ⟨fresh, m⟩ := p
    exact ih _ (selInv_handle today fresh sess m h)

/-- C10 counterexample: after the whitespace-only selection message the
state is indeed `ASK_ODDS` with an empty selection, but the next message
(`"1.85"`, meant as odds) is routed by field presence and *overwrites the
selection* — the draft's odds stay `0` and the empty selection is gone, so
the claimed continuation toward a commit with an empty selection does not
happen. -/
theorem C10_counterexample :
    (runConv "01/01/2025" none c10prefix).map (fun s => (s.draft.selection, s.state)) =
      some ("", .ASK_ODDS) ∧
    (runConv "01/01/2025" none c10trace).map
        (fun s => (s.draft.selection, s.draft.odds, s.state)) =
      some ("1.85", 0, .ASK_ODDS) := by
  refine ⟨by decide, by decide⟩

/-- C10 amended: a whitespace-only input in the selection state is indeed
accepted — the selection is set to the empty string and the handler moves to
the odds state — but such a record can never reach commit: since an empty
selection is routed as "not yet asked", every conversation reachable from
scratch has a non-empty selection whenever it is awaiting a stake or a
confirmation, so the draft handed to the commit protocol never carries an
empty selection. -/
theorem C10_amended (today : String) (d : Draft) (raw : String) (msgs : List (String × Msg))
    (hempty : pyStrip raw = "") :
    ask_selection_step d raw = ⟨{ d with selection := "" }, .ASK_ODDS⟩ ∧
    (∀ s, runConv today none msgs = some s → s.state = .CONFIRM → s.draft.selection ≠ "") := by
  constructor
  · have hup : pyUpper "" = "" := rfl
    unfold ask_selection_step
    dsimp only
    rw [hempty, hup, if_neg (by decide), if_neg (by decide)]
  · intro s hs hst
    have hinv := selInv_runConv today msgs none trivial
    rw [hs] at hinv
    exact hinv (Or.inr hst)

/-- Witness: the whitespace message `" "` yields the empty selection and the
odds state. -/
theorem C10_witness :
    ask_selection_step {} " " = ⟨{ selection := "" }, .ASK_ODDS⟩ :=
  (C10_amended "T" {} " " [] (by decide)).1

/-! ## C5 -/

/-- A team character differs from every non-letter character. -/
theorem teamChar_ne {c : Char} (h : teamChar c) (d : Char) (hd : d.isAlpha = false) : c ≠ d := by
  rintro rfl
  rw [h.1] at hd
  cases hd

/-- Team characters are not whitespace. -/
theorem teamChar_not_ws {c : Char} (h : teamChar c) : isPyWs c = false := by
  have hne := fun (d : Char) (hd : d.isAlpha = false) => teamChar_ne h d hd
  simp [isPyWs, hne ' ' (by decide), hne '\t' (by decide), hne '\n' (by decide),
    hne '\r' (by decide), hne '\x0b' (by decide), hne '\x0c' (by decide)]

/-- Team characters are not newlines. -/
theorem teamChar_not_nl {c : Char} (h : teamChar c) : c ≠ '\n' :=
  teamChar_ne h '\n' (by decide)

/-- Team characters are admissible in the regex's first group. -/
theorem teamChar_isG1 {c : Char} (h : teamChar c) : isG1Char c = true := by
  simp [isG1Char, isDashChar, teamChar_not_nl h, teamChar_ne h '-' (by decide),
    teamChar_ne h '–' (by decide), teamChar_ne h '—' (by decide)]

/-- No separator alternative starts at a team character. -/
theorem teamChar_sepCandidates {c : Char} (h : teamChar c) (l : List Char) :
    sepCandidates (c :: l) = [] := by
  simp [sepCandidates, isDashChar, h.2.1, h.2.2, teamChar_ne h '-' (by decide),
    teamChar_ne h '–' (by decide), teamChar_ne h '—' (by decide)]

/-- Non-newline whitespace differs from every non-whitespace character. -/
theorem hws_ne {c : Char} (h : hwsChar c) (d : Char) (hd : isPyWs d = false) : c ≠ d := by
  rintro rfl
  rw [h.1] at hd
  cases hd

/-- Non-newline whitespace is admissible in the regex's first group. -/
theorem hws_isG1 {c : Char} (h : hwsChar c) : isG1Char c = true := by
  simp [isG1Char, isDashChar, h.2, hws_ne h '-' (by decide), hws_ne h '–' (by decide),
    hws_ne h '—' (by decide)]

/-- Non-newline `takeWhile` is inert on newline-free lists. -/
theorem takeWhile_ne_nl {l : List Char} (h : ∀ c ∈ l, c ≠ '\n') :
    l.takeWhile (fun c2 => !(c2 = '\n')) = l := by
  induction l with
  | nil => rfl
  | cons c t ih =>
    simp [List.takeWhile_cons, h c (by simp), ih (fun d hd => h d (by simp [hd]))]

/-- Whitespace `dropWhile` stops at a non-whitespace head. -/
theorem dropWhile_ws_cons_of_neg {c : Char} (hc : isPyWs c = false) (l : List Char) :
    (c :: l).dropWhile isPyWs = c :: l := by
  simp [List.dropWhile_cons, hc]

/-- Whitespace `dropWhile` removes a leading all-whitespace run. -/
theorem dropWhile_ws_append {g : List Char} (hg : ∀ c ∈ g, isPyWs c = true)
    (X : List Char) : (g ++ X).dropWhile isPyWs = X.dropWhile isPyWs := by
  induction g with
  | nil => rfl
  | cons c t ih =>
    simp [List.cons_append, List.dropWhile_cons, hg c (by simp),
      ih (fun d hd => hg d (by simp [hd]))]

/-- No completion is possible while the next character is a team character. -/
theorem trySepHere_none {c : Char} (hcT : teamChar c) (g1rev l : List Char) :
    trySepHere g1rev (c :: l) = none := by
  have h1 : (c :: l).dropWhile isPyWs = c :: l := by
    simp [List.dropWhile_cons, teamChar_not_ws hcT]
  unfold trySepHere
  rw [h1, teamChar_sepCandidates hcT]
  rfl

/-- A head given by `head?` is a member of the list. -/
theorem mem_of_head?_eq {α : Type} {l : List α} {a : α} (h : l.head? = some a) : a ∈ l := by
  cases l with
  | nil => cases h
  | cons x t =>
    rw [List.head?_cons, Option.some.injEq] at h
    subst h
    exact List.mem_cons_self x t

/-- The head of an append is the head of its non-empty left part. -/
theorem head?_append_left {α : Type} {l1 : List α} (h : l1 ≠ []) (l2 : List α) :
    (l1 ++ l2).head? = l1.head? := by
  obtain ⟨a, t, rfl⟩ := List.exists_cons_of_ne_nil h
  rfl

/-- Reversal preserves non-emptiness. -/
theorem reverse_ne_nil {α : Type} {l : List α} (h : l ≠ []) : l.reverse ≠ [] := by
  intro h2
  apply h
  rw [← List.reverse_reverse l, h2, List.reverse_nil]

/-- Collapsing the empty list gives the empty list. -/
theorem collapseWsAux_nil (b : Bool) : collapseWsAux [] b = [] := rfl

/-- Collapsing passes a whitespace-free word through unchanged. -/
theorem collapse_word_pass {w : List Char} (hw : ∀ c ∈ w, isPyWs c = false)
    (X : List Char) : collapseWsAux (w ++ X) false = w ++ collapseWsAux X false := by
  induction w with
  | nil => rfl
  | cons c t ih =>
    simp [collapseWsAux, List.cons_append, hw c (by simp),
      ih (fun d hd => hw d (by simp [hd]))]

/-- With the flag set, a whitespace run is skipped entirely. -/
theorem collapse_ws_true {g : List Char} (hg : ∀ c ∈ g, isPyWs c = true)
    (X : List Char) : collapseWsAux (g ++ X) true = collapseWsAux X true := by
  induction g with
  | nil => rfl
  | cons c t ih =>
    simp [collapseWsAux, List.cons_append, hg c (by simp),
      ih (fun d hd => hg d (by simp [hd]))]

/-- With the flag clear, a non-empty whitespace run becomes one space. -/
theorem collapse_ws_false {g : List Char} (hg : ∀ c ∈ g, isPyWs c = true)
    (hne : g ≠ []) (X : List Char) :
    collapseWsAux (g ++ X) false = ' ' :: collapseWsAux X true := by
  obtain ⟨c, t, rfl⟩ := List.exists_cons_of_ne_nil hne
  have ht : ∀ d ∈ t, isPyWs d = true := fun d hd => hg d (by simp [hd])
  simp [collapseWsAux, List.cons_append, hg c (by simp), collapse_ws_true ht X]

/-- The flag is irrelevant when the next character is not whitespace. -/
theorem collapse_flag_of_head {X : List Char}
    (h : ∀ c, X.head? = some c → isPyWs c = false) :
    collapseWsAux X true = collapseWsAux X false := by
  cases X with
  | nil => rfl
  | cons c t => simp [collapseWsAux, h c rfl]

/-- Stripping removes exactly the surrounding whitespace when the core is
non-empty with non-whitespace first and last characters. -/
theorem trim_ws_wrap (lw J tw : List Char)
    (hlw : ∀ c ∈ lw, isPyWs c = true) (htw : ∀ c ∈ tw, isPyWs c = true)
    (hJ : J ≠ [])
    (hh : ∀ c, J.head? = some c → isPyWs c = false)
    (hl : ∀ c, J.reverse.head? = some c → isPyWs c = false) :
    trimWsList (lw ++ J ++ tw) = J := by
  obtain ⟨c, t, rfl⟩ := List.exists_cons_of_ne_nil hJ
  have hc : isPyWs c = false := hh c rfl
  unfold trimWsList
  rw [List.append_assoc, dropWhile_ws_append hlw]
  rw [show ((c :: t) ++ tw).dropWhile isPyWs = (c :: t) ++ tw from by
    rw [List.cons_append]
    simp [List.dropWhile_cons, hc]]
  rw [List.reverse_append, dropWhile_ws_append (fun d hd => htw d (List.mem_reverse.mp hd))]
  have hrev : ((c :: t).reverse).dropWhile isPyWs = (c :: t).reverse := by
    cases hr : (c :: t).reverse with
    | nil => rfl
    | cons x xs =>
      have hx : isPyWs x = false := hl x (by rw [hr]; rfl)
      simp [List.dropWhile_cons, hx]
  rw [hrev, List.reverse_reverse]

/-- A fattened team name is non-empty and starts with a team character. -/
theorem fattens_head {ws : List (List Char)} {fat : List Char} (h : Fattens ws fat) :
    ∃ c t, fat = c :: t ∧ teamChar c := by
  cases h with
  | single w hw hc =>
    obtain ⟨c, t, rfl⟩ := List.exists_cons_of_ne_nil hw
    exact ⟨c, t, rfl, hc c (by simp)⟩
  | more w g ws fat hw hc hg hgc h2 =>
    obtain ⟨c, t, rfl⟩ := List.exists_cons_of_ne_nil hw
    exact ⟨c, t ++ g ++ fat, by simp, hc c (by simp)⟩

/-- Every character of a fattened team name is a team character or
non-newline whitespace. -/
theorem fattens_mem {ws : List (List Char)} {fat : List Char} (h : Fattens ws fat) :
    ∀ c ∈ fat, teamChar c ∨ hwsChar c := by
  induction h with
  | single w hw hc => exact fun c hc2 => Or.inl (hc c hc2)
  | more w g ws fat hw hc hg hgc h2 ih =>
    intro c hc2
    rcases List.mem_append.mp hc2 with h3 | h3
    · rcases List.mem_append.mp h3 with h4 | h4
      · exact Or.inl (hc c h4)
      · exact Or.inr (hgc c h4)
    · exact ih c h3

/-- A fattened word list is non-empty. -/
theorem fattens_ws_ne {ws : List (List Char)} {fat : List Char} (h : Fattens ws fat) :
    ws ≠ [] := by
  cases h <;> simp

/-- Unfolding the single-space join on a list with at least two words. -/
theorem joinWords_cons_ne (w : List Char) {ws : List (List Char)} (h : ws ≠ []) :
    joinWords (w :: ws) = w ++ ' ' :: joinWords ws := by
  cases ws with
  | nil => exact absurd rfl h
  | cons a t => rfl

/-- The single-space join of a fattened word list is non-empty. -/
theorem fattens_join_ne {ws : List (List Char)} {fat : List Char} (h : Fattens ws fat) :
    joinWords ws ≠ [] := by
  cases h with
  | single w hw hc => exact hw
  | more w g ws2 fat2 hw hc hg hgc h2 =>
    rw [joinWords_cons_ne w (fattens_ws_ne h2)]
    intro h3
    exact hw (List.append_eq_nil.mp h3).1

/-- The single-space join of a fattened word list starts with a team
character. -/
theorem fattens_join_head {ws : List (List Char)} {fat : List Char} (h : Fattens ws fat) :
    ∀ c, (joinWords ws).head? = some c → teamChar c := by
  induction h with
  | single w hw hc =>
    intro c hc2
    rw [show joinWords [w] = w from rfl] at hc2
    obtain ⟨a, t, rfl⟩ := List.exists_cons_of_ne_nil hw
    rw [List.head?_cons, Option.some.injEq] at hc2
    subst hc2
    exact hc a (by simp)
  | more w g ws2 fat2 hw hc hg hgc h2 =>
    intro c hc2
    rw [joinWords_cons_ne w (fattens_ws_ne h2)] at hc2
    obtain ⟨a, t, rfl⟩ := List.exists_cons_of_ne_nil hw
    rw [List.cons_append, List.head?_cons, Option.some.injEq] at hc2
    subst hc2
    exact hc a (by simp)

/-- The single-space join of a fattened word list ends with a team
character. -/
theorem fattens_join_last {ws : List (List Char)} {fat : List Char} (h : Fattens ws fat) :
    ∀ c, (joinWords ws).reverse.head? = some c → teamChar c := by
  induction h with
  | single w hw hc =>
    intro c hc2
    rw [show joinWords [w] = w from rfl] at hc2
    exact hc c (List.mem_reverse.mp (mem_of_head?_eq hc2))
  | more w g ws2 fat2 hw hc hg hgc h2 ih =>
    intro c hc2
    rw [joinWords_cons_ne w (fattens_ws_ne h2), List.reverse_append, List.reverse_cons,
      List.append_assoc] at hc2
    rw [head?_append_left (reverse_ne_nil (fattens_join_ne h2))
      ([' '] ++ w.reverse)] at hc2
    exact ih c hc2

/-- A fattened team name is a walkable group-1 region. -/
theorem preOk_of_fattens {ws : List (List Char)} {fat : List Char} (h : Fattens ws fat) :
    PreOk fat := by
  induction h with
  | single w hw hc => exact PreOk.word w hw hc
  | more w g ws fat hw hc hg hgc h2 ih =>
    rw [List.append_assoc]
    exact PreOk.wordpre w (g ++ fat) hw hc (PreOk.wspre g fat hgc ih)

/-- Walkable group-1 regions are non-empty. -/
theorem preOk_ne_nil {p : List Char} (h : PreOk p) : p ≠ [] := by
  induction h with
  | word w hw hc => exact hw
  | wordpre w p hw hc h2 ih =>
    intro h3
    exact hw (List.append_eq_nil.mp h3).1
  | wspre g p hgc h2 ih =>
    intro h3
    exact ih (List.append_eq_nil.mp h3).2

/-- Characters of a walkable group-1 region are team characters or
non-newline whitespace. -/
theorem preOk_mem {p : List Char} (h : PreOk p) : ∀ c ∈ p, teamChar c ∨ hwsChar c := by
  induction h with
  | word w hw hc => exact fun c h2 => Or.inl (hc c h2)
  | wordpre w p hw hc h2 ih =>
    intro c h3
    rcases List.mem_append.mp h3 with h4 | h4
    · exact Or.inl (hc c h4)
    · exact ih c h4
  | wspre g p hgc h2 ih =>
    intro c h3
    rcases List.mem_append.mp h3 with h4 | h4
    · exact Or.inr (hgc c h4)
    · exact ih c h4

/-- No separator alternative can start once the pending whitespace is
dropped onto a team character. -/
theorem sepCandidates_dropWhile_team {c : Char} (hcT : teamChar c) (l : List Char) :
    sepCandidates ((c :: l).dropWhile isPyWs) = [] := by
  rw [dropWhile_ws_cons_of_neg (teamChar_not_ws hcT)]
  exact teamChar_sepCandidates hcT l

/-- While the walk is inside a group-1 region, no separator can start after
the pending whitespace. -/
theorem preOk_no_sep {p : List Char} (h : PreOk p) (TAIL : List Char) :
    sepCandidates ((p ++ TAIL).dropWhile isPyWs) = [] := by
  induction h with
  | word w hw hc =>
    obtain ⟨c, t, rfl⟩ := List.exists_cons_of_ne_nil hw
    have hcT := hc c (by simp)
    simp only [List.cons_append]
    exact sepCandidates_dropWhile_team hcT _
  | wordpre w p hw hc h2 ih =>
    obtain ⟨c, t, rfl⟩ := List.exists_cons_of_ne_nil hw
    have hcT := hc c (by simp)
    simp only [List.cons_append, List.append_assoc]
    exact sepCandidates_dropWhile_team hcT _
  | wspre g p hgc h2 ih =>
    rw [List.append_assoc, dropWhile_ws_append (fun d hd => (hgc d hd).1)]
    exact ih

/-- Base of the walk: once the remaining input starts at the separator
position, group 1 grows no further. -/
theorem cont_of_base {g2v TAIL : List Char}
    (hbase : ∀ g1rev : List Char, trySepHere g1rev TAIL = some (g1rev.reverse, g2v)) :
    MatchCont g2v TAIL [] := by
  intro g1rev
  cases TAIL with
  | nil => simp only [tryFrom, hbase g1rev, List.append_nil]
  | cons c rest => simp only [tryFrom, hbase g1rev, List.append_nil]

/-- Walking one word of team characters extends group 1 by that word. -/
theorem cont_word_extend {g2v X K : List Char} (h : MatchCont g2v X K)
    (w : List Char) (hw : ∀ c ∈ w, teamChar c) : MatchCont g2v (w ++ X) (w ++ K) := by
  induction w with
  | nil => simpa using h
  | cons c t ih =>
    intro g1rev
    have hcT : teamChar c := hw c (by simp)
    have ht : ∀ d ∈ t, teamChar d := fun d hd => hw d (by simp [hd])
    rw [List.cons_append, List.cons_append]
    simp only [tryFrom, trySepHere_none hcT]
    rw [teamChar_isG1 hcT]
    simp only [if_true, List.append_eq]
    rw [ih ht (c :: g1rev)]
    simp [List.reverse_cons, List.append_assoc]

/-- Walking a whitespace run extends group 1 by that run, provided no
separator can start after it. -/
theorem cont_ws_extend {g2v X K : List Char} (h : MatchCont g2v X K)
    (hX0 : sepCandidates (X.dropWhile isPyWs) = [])
    (g : List Char) (hg : ∀ c ∈ g, hwsChar c) : MatchCont g2v (g ++ X) (g ++ K) := by
  induction g with
  | nil => simpa using h
  | cons c t ih =>
    intro g1rev
    have hcW : hwsChar c := hg c (by simp)
    have ht : ∀ d ∈ t, hwsChar d := fun d hd => hg d (by simp [hd])
    have hnone : trySepHere g1rev (c :: (t ++ X)) = none := by
      unfold trySepHere
      rw [show (c :: (t ++ X)).dropWhile isPyWs = X.dropWhile isPyWs from by
        simp [List.dropWhile_cons, hcW.1, dropWhile_ws_append (fun d hd => (ht d hd).1)]]
      rw [hX0]
      rfl
    rw [List.cons_append, List.cons_append]
    simp only [tryFrom, hnone]
    rw [hws_isG1 hcW]
    simp only [if_true, List.append_eq]
    rw [ih ht (c :: g1rev)]
    simp [List.reverse_cons, List.append_assoc]

/-- The lazy group 1 consumes exactly a walkable region: the walk never
completes early and does complete at its end. -/
theorem cont_main {g2v TAIL : List Char}
    (hbase : ∀ g1rev : List Char, trySepHere g1rev TAIL = some (g1rev.reverse, g2v)) :
    ∀ {p : List Char}, PreOk p → MatchCont g2v (p ++ TAIL) p := by
  intro p hp
  induction hp with
  | word w hw hc =>
    have h5 := cont_word_extend (cont_of_base hbase) w hc
    simpa using h5
  | wordpre w p hw hc h2 ih =>
    have h5 := cont_word_extend ih w hc
    simpa [List.append_assoc] using h5
  | wspre g p hgc h2 ih =>
    have h5 := cont_ws_extend ih (preOk_no_sep h2 TAIL) g hgc
    simpa [List.append_assoc] using h5

/-- On a walkable region followed by a completing tail, the search matches
at the first position, consuming the region as group 1. -/
theorem searchTeams_full {g2v TAIL p : List Char} (hp : PreOk p)
    (hbase : ∀ g1rev : List Char, trySepHere g1rev TAIL = some (g1rev.reverse, g2v)) :
    searchTeams (p ++ TAIL) = some (p, g2v) := by
  obtain ⟨c, p2, rfl⟩ := List.exists_cons_of_ne_nil (preOk_ne_nil hp)
  have hG1 : isG1Char c = true := by
    rcases preOk_mem hp c (by simp) with h1 | h1
    · exact teamChar_isG1 h1
    · exact hws_isG1 h1
  have h0 : tryFrom [] ((c :: p2) ++ TAIL) = some (c :: p2, g2v) := by
    have h5 := cont_main hbase hp []
    simpa using h5
  have hn : trySepHere [] ((c :: p2) ++ TAIL) = none := by
    unfold trySepHere
    rw [preOk_no_sep hp TAIL]
    rfl
  rw [List.cons_append] at h0 hn
  simp only [tryFrom, hn] at h0
  rw [hG1] at h0
  simp only [if_true, List.append_eq] at h0
  rw [List.cons_append]
  simp only [searchTeams]
  rw [hG1]
  simp only [if_true, List.append_eq, h0]

/-- Separator alternatives at `vs` followed by whitespace: `vs` first, then
the bare `v`. -/
theorem sepCandidates_vs_ws {m0 : Char} (hm : hwsChar m0) (rest : List Char) :
    sepCandidates ('v' :: 's' :: m0 :: rest) = [m0 :: rest, 's' :: m0 :: rest] := by
  simp [sepCandidates, hws_ne hm '.' (by decide)]

/-- Separator alternatives at a bare `v` followed by whitespace. -/
theorem sepCandidates_v_ws {m0 : Char} (hm : hwsChar m0) (rest : List Char) :
    sepCandidates ('v' :: m0 :: rest) = [m0 :: rest] := by
  simp [sepCandidates, hws_ne hm 's' (by decide), hws_ne hm 'S' (by decide),
    hws_ne hm '.' (by decide)]

/-- Separator alternatives at a dash character. -/
theorem sepCandidates_dash_cons {d : Char} (hd : isDashChar d = true)
    (hv : (d = 'v' || d = 'V') = false) (l : List Char) :
    sepCandidates (d :: l) = [l] := by
  simp [sepCandidates, hd, hv]

/-- After the separator, the whitespace run is consumed as the pattern's
gap and the fattened right side plus its trailing whitespace is group 2. -/
theorem group2After_tail {bws : List (List Char)} {fatB : List Char}
    (hB : Fattens bws fatB) (mw2 tw : List Char)
    (hmw2 : ∀ c ∈ mw2, hwsChar c) (htw : ∀ c ∈ tw, hwsChar c) :
    group2After (mw2 ++ (fatB ++ tw)) = some (fatB ++ tw) := by
  have hnl : ∀ d ∈ fatB ++ tw, d ≠ '\n' := by
    intro d hd
    rcases List.mem_append.mp hd with h1 | h1
    · rcases fattens_mem hB d h1 with h2 | h2
      · exact teamChar_not_nl h2
      · exact h2.2
    · exact (htw d h1).2
  obtain ⟨c, t, hfat, hcT⟩ := fattens_head hB
  have hdw : (mw2 ++ (fatB ++ tw)).dropWhile isPyWs = c :: (t ++ tw) := by
    rw [dropWhile_ws_append (fun d hd => (hmw2 d hd).1), hfat, List.cons_append]
    exact dropWhile_ws_cons_of_neg (teamChar_not_ws hcT) _
  unfold group2After
  rw [hdw]
  dsimp only
  rw [takeWhile_ne_nl (by
    intro d hd
    exact hnl d (by rw [hfat, List.cons_append]; exact hd))]
  rw [hfat, List.cons_append]

/-- At the separator position the match completes, with the fattened right
side and its trailing whitespace as group 2. -/
theorem trySepHere_tail {bws : List (List Char)} {fatB : List Char} {sepL : List Char}
    (hsep : sepL = ['v', 's'] ∨ sepL = ['v'] ∨ sepL = ['-'] ∨ sepL = ['–'] ∨ sepL = ['—'])
    (hB : Fattens bws fatB) (mw1 mw2 tw : List Char)
    (hmw1 : ∀ c ∈ mw1, hwsChar c) (hmw2 : ∀ c ∈ mw2, hwsChar c) (hmw2ne : mw2 ≠ [])
    (htw : ∀ c ∈ tw, hwsChar c) (g1rev : List Char) :
    trySepHere g1rev (mw1 ++ (sepL ++ (mw2 ++ (fatB ++ tw)))) =
      some (g1rev.reverse, fatB ++ tw) := by
  obtain ⟨m0, mw2t, rfl⟩ := List.exists_cons_of_ne_nil hmw2ne
  have hm0 : hwsChar m0 := hmw2 m0 (by simp)
  have hg2 := group2After_tail hB (m0 :: mw2t) tw hmw2 htw
  simp only [List.cons_append] at hg2
  unfold trySepHere
  rw [dropWhile_ws_append (fun d hd => (hmw1 d hd).1)]
  rcases hsep with rfl | rfl | rfl | rfl | rfl
  · simp only [List.cons_append, List.nil_append]
    rw [dropWhile_ws_cons_of_neg (show isPyWs 'v' = false by decide),
      sepCandidates_vs_ws hm0]
    simp only [firstSome?]
    rw [hg2]
    rfl
  · simp only [List.cons_append, List.nil_append]
    rw [dropWhile_ws_cons_of_neg (show isPyWs 'v' = false by decide),
      sepCandidates_v_ws hm0]
    simp only [firstSome?]
    rw [hg2]
    rfl
  · simp only [List.cons_append, List.nil_append]
    rw [dropWhile_ws_cons_of_neg (show isPyWs '-' = false by decide),
      sepCandidates_dash_cons (show isDashChar '-' = true by decide)
        (show ('-' = 'v' || '-' = 'V') = false by decide)]
    simp only [firstSome?]
    rw [hg2]
    rfl
  · simp only [List.cons_append, List.nil_append]
    rw [dropWhile_ws_cons_of_neg (show isPyWs '–' = false by decide),
      sepCandidates_dash_cons (show isDashChar '–' = true by decide)
        (show ('–' = 'v' || '–' = 'V') = false by decide)]
    simp only [firstSome?]
    rw [hg2]
    rfl
  · simp only [List.cons_append, List.nil_append]
    rw [dropWhile_ws_cons_of_neg (show isPyWs '—' = false by decide),
      sepCandidates_dash_cons (show isDashChar '—' = true by decide)
        (show ('—' = 'v' || '—' = 'V') = false by decide)]
    simp only [firstSome?]
    rw [hg2]
    rfl

/-- Collapsing a fattened team name yields its single-spaced words. -/
theorem collapse_fattens {ws : List (List Char)} {fat : List Char} (h : Fattens ws fat)
    (X : List Char) :
    collapseWsAux (fat ++ X) false = joinWords ws ++ collapseWsAux X false := by
  induction h with
  | single w hw hc => exact collapse_word_pass (fun c h3 => teamChar_not_ws (hc c h3)) X
  | more w g ws2 fat2 hw hc hg hgc h2 ih =>
    obtain ⟨c0, t0, hfat, hc0⟩ := fattens_head h2
    rw [List.append_assoc, List.append_assoc,
      collapse_word_pass (fun c h3 => teamChar_not_ws (hc c h3)),
      collapse_ws_false (fun c h3 => (hgc c h3).1) hg,
      collapse_flag_of_head (by
        intro c h3
        rw [hfat, List.cons_append, List.head?_cons, Option.some.injEq] at h3
        subst h3
        exact teamChar_not_ws hc0),
      ih, joinWords_cons_ne w (fattens_ws_ne h2)]
    simp [List.append_assoc, List.cons_append]

/-- Normalisation of the left capture: collapse then strip sends the
leading whitespace plus the fattened name to its single-spaced words. -/
theorem sideA_norm {aws : List (List Char)} {fatA : List Char} (hA : Fattens aws fatA)
    (lw : List Char) (hlw : ∀ c ∈ lw, hwsChar c) :
    trimWsList (collapseWs (lw ++ fatA)) = joinWords aws := by
  obtain ⟨c0, t0, hfat, hc0⟩ := fattens_head hA
  have hJne := fattens_join_ne hA
  have hh : ∀ c, (joinWords aws).head? = some c → isPyWs c = false :=
    fun c h2 => teamChar_not_ws (fattens_join_head hA c h2)
  have hl : ∀ c, (joinWords aws).reverse.head? = some c → isPyWs c = false :=
    fun c h2 => teamChar_not_ws (fattens_join_last hA c h2)
  have hcoll : collapseWs fatA = joinWords aws := by
    have h3 := collapse_fattens hA []
    rw [List.append_nil, collapseWsAux_nil, List.append_nil] at h3
    exact h3
  by_cases hlwe : lw = []
  · subst hlwe
    rw [List.nil_append, hcoll]
    have h4 := trim_ws_wrap [] (joinWords aws) [] (by decide) (by decide) hJne hh hl
    rw [List.nil_append, List.append_nil] at h4
    exact h4
  · have hhd : ∀ c, fatA.head? = some c → isPyWs c = false := by
      intro c h2
      rw [hfat, List.head?_cons, Option.some.injEq] at h2
      subst h2
      exact teamChar_not_ws hc0
    have hstep : collapseWs (lw ++ fatA) = ' ' :: joinWords aws := by
      unfold collapseWs
      rw [collapse_ws_false (fun c h2 => (hlw c h2).1) hlwe,
        collapse_flag_of_head hhd]
      exact congrArg (fun l => ' ' :: l) hcoll
    rw [hstep]
    have h4 := trim_ws_wrap [' '] (joinWords aws) [] (by decide) (by decide) hJne hh hl
    rw [List.append_nil] at h4
    exact h4

/-- Normalisation of the right capture: collapse then strip sends the
fattened name plus trailing whitespace to its single-spaced words. -/
theorem sideB_norm {bws : List (List Char)} {fatB : List Char} (hB : Fattens bws fatB)
    (tw : List Char) (htw : ∀ c ∈ tw, hwsChar c) :
    trimWsList (collapseWs (fatB ++ tw)) = joinWords bws := by
  have hJne := fattens_join_ne hB
  have hh : ∀ c, (joinWords bws).head? = some c → isPyWs c = false :=
    fun c h2 => teamChar_not_ws (fattens_join_head hB c h2)
  have hl : ∀ c, (joinWords bws).reverse.head? = some c → isPyWs c = false :=
    fun c h2 => teamChar_not_ws (fattens_join_last hB c h2)
  have hcoll := collapse_fattens hB tw
  by_cases htwe : tw = []
  · subst htwe
    rw [show collapseWs (fatB ++ []) = joinWords bws from by
      unfold collapseWs
      rw [hcoll, collapseWsAux_nil, List.append_nil]]
    have h4 := trim_ws_wrap [] (joinWords bws) [] (by decide) (by decide) hJne hh hl
    rw [List.nil_append, List.append_nil] at h4
    exact h4
  · have htws : ∀ c ∈ tw, isPyWs c = true := fun c h2 => (htw c h2).1
    have hstep : collapseWs (fatB ++ tw) = joinWords bws ++ [' '] := by
      unfold collapseWs
      rw [hcoll]
      obtain ⟨x, xs, rfl⟩ := List.exists_cons_of_ne_nil htwe
      have h6 := collapse_ws_false htws (by simp) ([] : List Char)
      rw [List.append_nil, collapseWsAux_nil] at h6
      rw [h6]
    rw [hstep]
    have h4 := trim_ws_wrap [] (joinWords bws) [' '] (by decide) (by decide) hJne hh hl
    rw [List.nil_append] at h4
    exact h4

/-- C5 counterexample: two concrete violations of the claim. In `"A vs "`
the right segment is empty (only whitespace follows the separator), so the
claim requires failure, yet the parse succeeds with an empty right side.
In `"Ava vs B"` the two segments `"Ava"` and `"B"` are joined by a spaced
`vs`, yet the result is not the normalised input: the separator tokens are
not word-bounded, so the letter `v` inside the left name is itself taken as
a separator and the input splits there. -/
theorem C5_counterexample :
    _parse_teams "A vs " = some "A vs " ∧
    _parse_teams "Ava vs B" = some "A vs a vs B" := by
  refine ⟨by decide, by decide⟩

/-- C5 amended: on an input consisting of optional leading whitespace, a
left team name, optional whitespace, one of the separators `vs`, `v`, `-`,
`–`, `—`, at least one whitespace character, a right team name, and
optional trailing whitespace — where every whitespace character is
non-newline and each team name is a non-empty sequence of words of ASCII
letters other than `v`/`V`, joined by non-empty whitespace runs —
`_parse_teams` succeeds and returns exactly the two names, each collapsed
to single spaces and stripped, joined by a spaced `vs`. The exclusions of
`v`/`V` and dashes inside names and of a separator not followed by
whitespace are forced by the counterexample: those characters act as
separators wherever they occur. -/
theorem C5_amended (aws bws : List (List Char)) (fatA fatB lw mw1 mw2 tw sepL : List Char)
    (hsep : sepL = ['v', 's'] ∨ sepL = ['v'] ∨ sepL = ['-'] ∨ sepL = ['–'] ∨ sepL = ['—'])
    (hA : Fattens aws fatA) (hB : Fattens bws fatB)
    (hlw : ∀ c ∈ lw, hwsChar c) (hmw1 : ∀ c ∈ mw1, hwsChar c)
    (hmw2 : ∀ c ∈ mw2, hwsChar c) (hmw2ne : mw2 ≠ [])
    (htw : ∀ c ∈ tw, hwsChar c) :
    _parse_teams ⟨lw ++ fatA ++ mw1 ++ sepL ++ mw2 ++ fatB ++ tw⟩ =
      some ⟨joinWords aws ++ ' ' :: 'v' :: 's' :: ' ' :: joinWords bws⟩ := by
  have hpre : PreOk (lw ++ fatA) := PreOk.wspre lw fatA hlw (preOk_of_fattens hA)
  have hbase : ∀ g1rev : List Char,
      trySepHere g1rev (mw1 ++ (sepL ++ (mw2 ++ (fatB ++ tw)))) =
        some (g1rev.reverse, fatB ++ tw) :=
    fun g1rev => trySepHere_tail hsep hB mw1 mw2 tw hmw1 hmw2 hmw2ne htw g1rev
  have hsearch := searchTeams_full hpre hbase
  have hdata : (⟨lw ++ fatA ++ mw1 ++ sepL ++ mw2 ++ fatB ++ tw⟩ : String).data =
      lw ++ fatA ++ mw1 ++ sepL ++ mw2 ++ fatB ++ tw := rfl
  have hshape : lw ++ fatA ++ mw1 ++ sepL ++ mw2 ++ fatB ++ tw =
      (lw ++ fatA) ++ (mw1 ++ (sepL ++ (mw2 ++ (fatB ++ tw)))) := by
    simp [List.append_assoc]
  unfold _parse_teams
  rw [hdata, hshape, hsearch]
  dsimp only
  rw [sideA_norm hA lw hlw, sideB_norm hB tw htw]

/-- Witness: a concrete input with leading, doubled-internal and trailing
whitespace and a multi-word left side is normalised as the theorem states. -/
theorem C5_witness : _parse_teams " Real  Madrid vs  Barca " = some "Real Madrid vs Barca" := by
  have e1 : (" Real  Madrid vs  Barca " : String) =
      ⟨[' '] ++ ("Real".data ++ [' ', ' '] ++ "Madrid".data) ++ [' '] ++ ['v', 's'] ++
        [' ', ' '] ++ "Barca".data ++ [' ']⟩ := by decide
  have e2 : ("Real Madrid vs Barca" : String) =
      ⟨joinWords ["Real".data, "Madrid".data] ++
        ' ' :: 'v' :: 's' :: ' ' :: joinWords ["Barca".data]⟩ := by decide
  rw [e1, e2]
  exact C5_amended ["Real".data, "Madrid".data] ["Barca".data]
    ("Real".data ++ [' ', ' '] ++ "Madrid".data) "Barca".data
    [' '] [' '] [' ', ' '] [' '] ['v', 's']
    (Or.inl rfl)
    (Fattens.more "Real".data [' ', ' '] ["Madrid".data] "Madrid".data
      (by decide) (by decide) (by decide) (by decide)
      (Fattens.single "Madrid".data (by decide) (by decide)))
    (Fattens.single "Barca".data (by decide) (by decide))
    (by decide) (by decide) (by decide) (by decide) (by decide)

/-! ## C9 -/

/-- C9: for every configured time-to-live in days (zero and negatives
included) the expiry handed to `SETEX` is `max 60 (days * 24 * 3600)`,
hence never below 60 seconds. -/
theorem C9_setex_ttl_floor (ttlDays : ℤ) :
    setexTTL ttlDays = max 60 (ttlDays * 24 * 3600) ∧ 60 ≤ setexTTL ttlDays :=
  ⟨rfl, le_max_left _ _⟩

end BotIngestador
